/-
Verification of the idgaf.ai model-lifecycle core against its design
specification.  The definitions below are shallow embeddings of the
TypeScript sources:

  * `IDGAF.LRUCache`        — packages/core/src/runtime/LRUCache.ts
  * `IDGAF.ModelRegistry`   — packages/core/dist/runtime/ModelRegistry.js
  * `IDGAF.BackpressureHandler`, `IDGAF.TokenBuffer`,
    `IDGAF.streamWithTimeout` — packages/core/src/utils/StreamingUtils.ts
  * `IDGAF.ErrorHandler`    — packages/core/src/utils/ErrorHandler.ts

JavaScript `Map` objects are embedded as association lists in insertion
order (`Map.set` on a present key updates in place, on an absent key
appends; `Map.delete` removes; iteration follows insertion order).
`Date` timestamps become `Nat` logical clocks supplied explicitly by the
caller (`now` arguments).  Byte sizes are exact naturals; the cache's
`currentSize` accumulator is an `Int` so that the "never negative"
invariant is a theorem rather than an artifact of truncated subtraction.
Calls to `adapter.unloadModel(id)` are recorded in an `unloadLog`.
-/
import Mathlib

namespace IDGAF

/-! ### Association-list embedding of JavaScript `Map` -/

/-- `Map.get`: first binding of the key, if any. -/
def mapGet {α : Type} (k : String) : List (String × α) → Option α
  | [] => none
  | (k', v) :: rest => if k' = k then some v else mapGet k rest

/-- `Map.delete`: remove the binding of the key (association lists built
by the operations below never bind a key twice). -/
def mapDelete {α : Type} (k : String) : List (String × α) → List (String × α)
  | [] => []
  | (k', v) :: rest =>
    if k' = k then mapDelete k rest else (k', v) :: mapDelete k rest

/-- `Map.set`: update in place when the key is present (preserving its
position in insertion order), append otherwise. -/
def mapSet {α : Type} (k : String) (v : α) (l : List (String × α)) :
    List (String × α) :=
  if (mapGet k l).isSome then
    l.map (fun kv => if kv.1 = k then (k, v) else kv)
  else
    l ++ [(k, v)]

/-- Keys of an association list, in insertion order. -/
def keysOf {α : Type} (l : List (String × α)) : List String :=
  l.map (fun kv => kv.1)

/-! ### Data model (src/types) -/

/-- `ModelInfo` descriptor.  Only the fields consulted by the verified
operations are carried (`format` by adapter scoring, `size` by the
cache); name/version/checksum/metadata are never read by them. -/
structure ModelInfo where
  format : String
  size : Nat
deriving Repr, DecidableEq

/-- `LoadedModel`: one in-memory model instance.  The back-reference to
the owning adapter is represented by recording unload calls in the
cache's `unloadLog` instead of carrying a closure. -/
structure LoadedModel where
  id : String
  info : ModelInfo
deriving Repr, DecidableEq

/-- `CacheEntry` metadata paired 1:1 with a `LoadedModel` in the cache. -/
structure CacheEntry where
  key : String
  modelId : String
  size : Nat
  lastAccessed : Nat
  hitCount : Nat
deriving Repr, DecidableEq

/-- The `{ model, entry }` record stored as a `Map` value in
`LRUCache.cache`. -/
structure Cached where
  model : LoadedModel
  entry : CacheEntry
deriving Repr, DecidableEq

/-! ### LRUCache (runtime/LRUCache.ts) -/

/-- State of an `LRUCache` instance.  `unloadLog` records the model ids
passed to `adapter.unloadModel`, in call order. -/
structure LRUCache where
  cache : List (String × Cached)
  maxSize : Nat
  currentSize : Int
  unloadLog : List String
deriving Repr, DecidableEq

namespace LRUCache

/-- `new LRUCache(maxSizeMB)`: capacity is `maxSizeMB * 1024 * 1024`
bytes. -/
def init (maxSizeMB : Nat) : LRUCache :=
  { cache := [], maxSize := maxSizeMB * 1024 * 1024, currentSize := 0,
    unloadLog := [] }

/-- `get(key)`: on hit, bump `lastAccessed` to `now`, increment
`hitCount`, and move the entry to the most-recently-used position by
`delete` + `set` reinsertion. -/
def get (c : LRUCache) (key : String) (now : Nat) :
    LRUCache × Option LoadedModel :=
  match mapGet key c.cache with
  | none => (c, none)
  | some cached =>
    let cached' : Cached :=
      { cached with entry :=
          { cached.entry with lastAccessed := now,
                              hitCount := cached.entry.hitCount + 1 } }
    ({ c with cache := mapSet key cached' (mapDelete key c.cache) },
     some cached'.model)

/-- `delete(key)`: unload the adapter resources (logged), subtract the
entry's size, drop the binding.  No-op when absent. -/
def delete (c : LRUCache) (key : String) : LRUCache :=
  match mapGet key c.cache with
  | none => c
  | some cached =>
    { c with currentSize := c.currentSize - (cached.entry.size : Int),
             unloadLog := c.unloadLog ++ [cached.model.id],
             cache := mapDelete key c.cache }

/-- Inner fold of `evictLRU`: track the key with the smallest
`lastAccessed`, strict `<`, so the first encountered wins ties. -/
def oldestAcc : Option (String × Nat) → List (String × Cached) →
    Option (String × Nat)
  | acc, [] => acc
  | acc, (k, cached) :: rest =>
    let acc' : Option (String × Nat) :=
      match acc with
      | none => some (k, cached.entry.lastAccessed)
      | some (k₀, t₀) =>
        if cached.entry.lastAccessed < t₀ then
          some (k, cached.entry.lastAccessed)
        else some (k₀, t₀)
    oldestAcc acc' rest

/-- `evictLRU()`: delete the entry with the oldest `lastAccessed`
timestamp, if any. -/
def evictLRU (c : LRUCache) : LRUCache :=
  match oldestAcc none c.cache with
  | some (k, _) => c.delete k
  | none => c

/-- The `while (currentSize + modelSize > maxSize && cache.size > 0)`
loop of `set`, fueled; `set` supplies `fuel = cache.length`, which
suffices because every `evictLRU` on a non-empty cache removes exactly
one entry. -/
def evictLoop (modelSize : Nat) : Nat → LRUCache → LRUCache
  | 0, c => c
  | fuel + 1, c =>
    if c.currentSize + (modelSize : Int) > (c.maxSize : Int) ∧ c.cache ≠ []
    then evictLoop modelSize fuel c.evictLRU
    else c

/-- Error message thrown by `set` for an oversized model. -/
def capacityError (modelSize maxSize : Nat) : String :=
  "Model size " ++ toString modelSize ++ " exceeds cache capacity " ++
    toString maxSize

/-- `set(key, model)`: evict LRU entries while the insert would overflow
and the cache is non-empty; then fail if the model alone exceeds
capacity; then release any entry already bound to `key`; finally insert
and add the size. -/
def set (c : LRUCache) (key : String) (model : LoadedModel) (now : Nat) :
    LRUCache × Except String Unit :=
  let modelSize := model.info.size
  let c1 := evictLoop modelSize c.cache.length c
  if modelSize > c1.maxSize then
    (c1, Except.error (capacityError modelSize c1.maxSize))
  else
    let entry : CacheEntry :=
      { key := key, modelId := model.id, size := modelSize,
        lastAccessed := now, hitCount := 1 }
    let c2 :=
      match mapGet key c1.cache with
      | some existing =>
        { c1 with
            currentSize := c1.currentSize - (existing.entry.size : Int),
            unloadLog := c1.unloadLog ++ [existing.model.id] }
      | none => c1
    ({ c2 with cache := mapSet key { model := model, entry := entry } c2.cache,
               currentSize := c2.currentSize + (modelSize : Int) },
     Except.ok ())

/-- `clear()`: unload every entry (fan-out, logged in iteration order),
reset the map and size. -/
def clear (c : LRUCache) : LRUCache :=
  { c with unloadLog := c.unloadLog ++ c.cache.map (fun kv => kv.2.model.id),
           cache := [], currentSize := 0 }

/-- Result record of `getStats()`. -/
structure Stats where
  totalSize : Int
  entryCount : Nat
  hitRate : Rat
deriving Repr, DecidableEq

/-- `getStats()`: `totalAccesses` is (verbatim from the source) the same
sum as `totalHits`, so the hit rate degenerates to hits/hits. -/
def getStats (c : LRUCache) : Stats :=
  let totalHits : Nat := (c.cache.map (fun kv => kv.2.entry.hitCount)).sum
  let totalAccesses : Nat := totalHits
  let hitRate : Rat :=
    if totalAccesses > 0 then (totalHits : Rat) / (totalAccesses : Rat) else 0
  { totalSize := c.currentSize, entryCount := c.cache.length,
    hitRate := hitRate }

/-- `prune(maxAge)`: delete every entry whose age exceeds `maxAge`,
through `delete` so adapters are unloaded; returns the count removed. -/
def prune (c : LRUCache) (now : Nat) (maxAge : Nat) : LRUCache × Nat :=
  let keysToDelete :=
    keysOf (c.cache.filter (fun kv => now - kv.2.entry.lastAccessed > maxAge))
  (keysToDelete.foldl (fun acc k => acc.delete k) c, keysToDelete.length)

end LRUCache

/-- Sum of `entry.size` over all cache entries, as an integer. -/
def entrySizes (l : List (String × Cached)) : Int :=
  (l.map (fun kv => (kv.2.entry.size : Int))).sum

/-- Structural invariant of a cache state: the `currentSize` accumulator
equals the entry-size sum, keys are bound at most once, and every entry
has a positive hit count (entries are created by `set` with
`hitCount = 1` and `get` only increments). -/
structure LRUCache.Wf (c : LRUCache) : Prop where
  size_eq : c.currentSize = entrySizes c.cache
  nodup : (keysOf c.cache).Nodup
  hits : ∀ kv ∈ c.cache, 1 ≤ kv.2.entry.hitCount

/-- Cache states reachable from a freshly constructed cache by any
sequence of public operations. -/
inductive LRUCache.Reachable : LRUCache → Prop
  | init (maxSizeMB : Nat) : Reachable (LRUCache.init maxSizeMB)
  | get {c : LRUCache} (key : String) (now : Nat) :
      Reachable c → Reachable (c.get key now).1
  | set {c : LRUCache} (key : String) (model : LoadedModel) (now : Nat) :
      Reachable c → Reachable (c.set key model now).1
  | del {c : LRUCache} (key : String) :
      Reachable c → Reachable (c.delete key)
  | clear {c : LRUCache} : Reachable c → Reachable c.clear
  | prune {c : LRUCache} (now maxAge : Nat) :
      Reachable c → Reachable (c.prune now maxAge).1

/-! ### Association-list lemmas -/

theorem keysOf_nil {α : Type} : keysOf ([] : List (String × α)) = [] := rfl

theorem keysOf_cons {α : Type} (kv : String × α) (l : List (String × α)) :
    keysOf (kv :: l) = kv.1 :: keysOf l := rfl

theorem mapGet_none_iff {α : Type} (k : String) (l : List (String × α)) :
    mapGet k l = none ↔ k ∉ keysOf l := by
  induction l with
  | nil => simp [mapGet, keysOf_nil]
  | cons kv rest ih =>
    obtain ⟨k', v⟩ := kv
    by_cases h : k' = k
    · subst h
      simp [mapGet, keysOf_cons]
    · simp [mapGet, h, keysOf_cons, ih, Ne.symm h]

theorem exists_mapGet_of_mem_keys {α : Type} {k : String}
    {l : List (String × α)} (h : k ∈ keysOf l) : ∃ v, mapGet k l = some v := by
  rcases h' : mapGet k l with _ | v
  · exact absurd h ((mapGet_none_iff k l).mp h')
  · exact ⟨v, rfl⟩

theorem mem_of_mapGet_eq_some {α : Type} {k : String} {v : α}
    {l : List (String × α)} (h : mapGet k l = some v) : (k, v) ∈ l := by
  induction l with
  | nil => simp [mapGet] at h
  | cons kv rest ih =>
    obtain ⟨k', w⟩ := kv
    by_cases hk : k' = k
    · subst hk
      simp [mapGet] at h
      simp [h]
    · simp [mapGet, hk] at h
      exact List.mem_cons_of_mem _ (ih h)

theorem mapDelete_sublist {α : Type} (k : String) (l : List (String × α)) :
    List.Sublist (mapDelete k l) l := by
  induction l with
  | nil => simp [mapDelete]
  | cons kv rest ih =>
    obtain ⟨k', v⟩ := kv
    by_cases h : k' = k
    · rw [show mapDelete k ((k', v) :: rest) = mapDelete k rest from by
        simp [mapDelete, h]]
      exact ih.cons _
    · rw [show mapDelete k ((k', v) :: rest) = (k', v) :: mapDelete k rest from
        by simp [mapDelete, h]]
      exact ih.cons₂ _

theorem mem_keysOf_mapDelete {α : Type} {x k : String}
    {l : List (String × α)} :
    x ∈ keysOf (mapDelete k l) ↔ x ∈ keysOf l ∧ x ≠ k := by
  induction l with
  | nil => simp [mapDelete, keysOf_nil]
  | cons kv rest ih =>
    obtain ⟨k', v⟩ := kv
    by_cases h : k' = k
    · subst h
      rw [show mapDelete k' ((k', v) :: rest) = mapDelete k' rest from by
        simp [mapDelete]]
      rw [ih, keysOf_cons]
      constructor
      · rintro ⟨hm, hx⟩; exact ⟨List.mem_cons_of_mem _ hm, hx⟩
      · rintro ⟨hm, hx⟩
        rcases List.mem_cons.mp hm with hx' | hm'
        · exact absurd hx' hx
        · exact ⟨hm', hx⟩
    · rw [show mapDelete k ((k', v) :: rest) = (k', v) :: mapDelete k rest from
        by simp [mapDelete, h]]
      rw [keysOf_cons, keysOf_cons]
      simp only [List.mem_cons, ih]
      constructor
      · rintro (hx | ⟨hm, hxk⟩)
        · exact ⟨Or.inl hx, by simpa [hx] using h⟩
        · exact ⟨Or.inr hm, hxk⟩
      · rintro ⟨hx | hm, hxk⟩
        · exact Or.inl hx
        · exact Or.inr ⟨hm, hxk⟩

theorem mapDelete_eq_of_none {α : Type} {k : String} {l : List (String × α)}
    (h : mapGet k l = none) : mapDelete k l = l := by
  induction l with
  | nil => rfl
  | cons kv rest ih =>
    obtain ⟨k', v⟩ := kv
    by_cases hk : k' = k
    · simp [mapGet, hk] at h
    · simp only [mapGet, if_neg hk] at h
      simp [mapDelete, hk, ih h]

theorem entrySizes_nil : entrySizes [] = 0 := rfl

theorem entrySizes_cons (kv : String × Cached) (l : List (String × Cached)) :
    entrySizes (kv :: l) = (kv.2.entry.size : Int) + entrySizes l := by
  simp [entrySizes]

theorem entrySizes_append (l₁ l₂ : List (String × Cached)) :
    entrySizes (l₁ ++ l₂) = entrySizes l₁ + entrySizes l₂ := by
  simp [entrySizes]

theorem entrySizes_nonneg (l : List (String × Cached)) : 0 ≤ entrySizes l := by
  induction l with
  | nil => simp [entrySizes]
  | cons kv rest ih =>
    rw [entrySizes_cons]
    positivity

theorem entrySizes_mapDelete {k : String} {v : Cached}
    {l : List (String × Cached)} (nd : (keysOf l).Nodup)
    (h : mapGet k l = some v) :
    entrySizes (mapDelete k l) = entrySizes l - (v.entry.size : Int) := by
  induction l with
  | nil => simp [mapGet] at h
  | cons kv rest ih =>
    obtain ⟨k', w⟩ := kv
    rw [keysOf_cons, List.nodup_cons] at nd
    by_cases hk : k' = k
    · subst hk
      simp [mapGet] at h
      subst h
      have hnone : mapGet k' rest = none :=
        (mapGet_none_iff k' rest).mpr (by
          intro hmem; exact nd.1 hmem)
      rw [show mapDelete k' ((k', w) :: rest) = mapDelete k' rest from by
            simp [mapDelete],
          mapDelete_eq_of_none hnone, entrySizes_cons]
      ring
    · simp only [mapGet, if_neg hk] at h
      rw [show mapDelete k ((k', w) :: rest) = (k', w) :: mapDelete k rest from
            by simp [mapDelete, hk],
          entrySizes_cons, entrySizes_cons, ih nd.2 h]
      ring

theorem length_mapDelete_lt {α : Type} {k : String} {v : α}
    {l : List (String × α)} (h : mapGet k l = some v) :
    (mapDelete k l).length < l.length := by
  induction l with
  | nil => simp [mapGet] at h
  | cons kv rest ih =>
    obtain ⟨k', w⟩ := kv
    by_cases hk : k' = k
    · have hle := (mapDelete_sublist k rest).length_le
      simp only [mapDelete, if_pos hk, List.length_cons]
      omega
    · simp only [mapGet, if_neg hk] at h
      have := ih h
      simp only [mapDelete, if_neg hk, List.length_cons]
      omega

theorem mapSet_eq_append {α : Type} {k : String} {l : List (String × α)}
    (v : α) (h : mapGet k l = none) : mapSet k v l = l ++ [(k, v)] := by
  simp [mapSet, h]

theorem replaceMap_id {α : Type} {k : String} (v : α)
    {l : List (String × α)} (h : k ∉ keysOf l) :
    l.map (fun kv => if kv.1 = k then (k, v) else kv) = l := by
  induction l with
  | nil => rfl
  | cons kv rest ih =>
    obtain ⟨k', w⟩ := kv
    rw [keysOf_cons, List.mem_cons] at h
    push_neg at h
    simp only [List.map_cons]
    rw [if_neg (fun hh => h.1 hh.symm), ih h.2]

theorem mapSet_of_some {α : Type} {k : String} {l : List (String × α)}
    (v : α) (h : (mapGet k l).isSome) :
    mapSet k v l = l.map (fun kv => if kv.1 = k then (k, v) else kv) := by
  simp [mapSet, h]

theorem keysOf_replaceMap {α : Type} (k : String) (v : α)
    (l : List (String × α)) :
    keysOf (l.map (fun kv => if kv.1 = k then (k, v) else kv)) = keysOf l := by
  induction l with
  | nil => rfl
  | cons kv rest ih =>
    obtain ⟨k', w⟩ := kv
    by_cases hk : k' = k
    · subst hk
      simp only [List.map_cons, if_pos rfl, keysOf] at *
      simp [ih]
    · simp only [List.map_cons, if_neg hk, keysOf] at *
      simp [ih]

theorem entrySizes_replaceMap {k : String} {w : Cached} (v : Cached)
    {l : List (String × Cached)} (nd : (keysOf l).Nodup)
    (h : mapGet k l = some w) :
    entrySizes (l.map (fun kv => if kv.1 = k then (k, v) else kv)) =
      entrySizes l - (w.entry.size : Int) + (v.entry.size : Int) := by
  induction l with
  | nil => simp [mapGet] at h
  | cons kv rest ih =>
    obtain ⟨k', u⟩ := kv
    rw [keysOf_cons, List.nodup_cons] at nd
    by_cases hk : k' = k
    · subst hk
      simp [mapGet] at h
      subst h
      simp only [List.map_cons, if_true]
      rw [replaceMap_id v (by intro hm; exact nd.1 hm),
        entrySizes_cons, entrySizes_cons]
      ring
    · simp only [mapGet, if_neg hk] at h
      simp only [List.map_cons]
      rw [if_neg hk, entrySizes_cons, entrySizes_cons, ih nd.2 h]
      ring

theorem mem_mapSet {α : Type} {kv : String × α} {k : String} {v : α}
    {l : List (String × α)} (h : kv ∈ mapSet k v l) :
    kv ∈ l ∨ kv = (k, v) := by
  by_cases hs : (mapGet k l).isSome
  · rw [mapSet_of_some v hs] at h
    rcases List.mem_map.mp h with ⟨orig, horig, heq⟩
    by_cases ho : orig.1 = k
    · rw [if_pos ho] at heq; exact Or.inr heq.symm
    · rw [if_neg ho] at heq; exact Or.inl (heq ▸ horig)
  · rw [mapSet_eq_append v (by
      rcases hnone : mapGet k l with _ | w
      · rfl
      · rw [hnone] at hs; simp at hs)] at h
    rcases List.mem_append.mp h with hm | hm
    · exact Or.inl hm
    · simp at hm; exact Or.inr (by simp [hm])

/-! ### Eviction-search lemmas -/

theorem oldestAcc_mem (l : List (String × Cached)) :
    ∀ k₀ t₀, ∃ k t,
      LRUCache.oldestAcc (some (k₀, t₀)) l = some (k, t) ∧
        ((k, t) = (k₀, t₀) ∨ k ∈ keysOf l) := by
  induction l with
  | nil => exact fun k₀ t₀ => ⟨k₀, t₀, rfl, Or.inl rfl⟩
  | cons kv rest ih =>
    intro k₀ t₀
    obtain ⟨k₁, c₁⟩ := kv
    by_cases hlt : c₁.entry.lastAccessed < t₀
    · obtain ⟨k, t, heq, hmem⟩ := ih k₁ c₁.entry.lastAccessed
      refine ⟨k, t, by simpa [LRUCache.oldestAcc, hlt] using heq, Or.inr ?_⟩
      rw [keysOf_cons]
      rcases hmem with h | h
      · rw [Prod.mk.injEq] at h
        exact h.1 ▸ List.mem_cons_self _ _
      · exact List.mem_cons_of_mem _ h
    · obtain ⟨k, t, heq, hmem⟩ := ih k₀ t₀
      refine ⟨k, t, by simpa [LRUCache.oldestAcc, hlt] using heq, ?_⟩
      rcases hmem with h | h
      · exact Or.inl h
      · exact Or.inr (by rw [keysOf_cons]; exact List.mem_cons_of_mem _ h)

theorem oldestAcc_none_exists {l : List (String × Cached)} (h : l ≠ []) :
    ∃ k t, LRUCache.oldestAcc none l = some (k, t) ∧ k ∈ keysOf l := by
  match l with
  | (k₁, c₁) :: rest =>
    obtain ⟨k, t, heq, hmem⟩ := oldestAcc_mem rest k₁ c₁.entry.lastAccessed
    refine ⟨k, t, by simpa [LRUCache.oldestAcc] using heq, ?_⟩
    rw [keysOf_cons]
    rcases hmem with h' | h'
    · rw [Prod.mk.injEq] at h'
      exact h'.1 ▸ List.mem_cons_self _ _
    · exact List.mem_cons_of_mem _ h'

/-! ### Well-formedness preservation -/

theorem init_wf (maxSizeMB : Nat) : (LRUCache.init maxSizeMB).Wf := by
  refine ⟨rfl, by simp [LRUCache.init, keysOf_nil], ?_⟩
  intro kv hkv
  simp [LRUCache.init] at hkv

theorem delete_maxSize (c : LRUCache) (key : String) :
    (c.delete key).maxSize = c.maxSize := by
  rcases h : mapGet key c.cache with _ | v <;> simp [LRUCache.delete, h]

theorem delete_wf {c : LRUCache} (hc : c.Wf) (key : String) :
    (c.delete key).Wf := by
  rcases h : mapGet key c.cache with _ | v
  · simpa [LRUCache.delete, h] using hc
  · have hsub := mapDelete_sublist key c.cache
    refine ⟨?_, ?_, ?_⟩
    · simp only [LRUCache.delete, h]
      rw [entrySizes_mapDelete hc.nodup h, hc.size_eq]
    · simp only [LRUCache.delete, h]
      have h2 : (keysOf c.cache).Nodup := hc.nodup
      simp only [keysOf] at h2 ⊢
      exact (hsub.map _).nodup h2
    · intro kv hkv
      simp only [LRUCache.delete, h] at hkv
      exact hc.hits kv (hsub.subset hkv)

theorem evictLRU_maxSize (c : LRUCache) : c.evictLRU.maxSize = c.maxSize := by
  rcases h : LRUCache.oldestAcc none c.cache with _ | ⟨k, t⟩
  · simp [LRUCache.evictLRU, h]
  · simp [LRUCache.evictLRU, h, delete_maxSize]

theorem evictLRU_wf {c : LRUCache} (hc : c.Wf) : c.evictLRU.Wf := by
  rcases h : LRUCache.oldestAcc none c.cache with _ | ⟨k, t⟩
  · simpa [LRUCache.evictLRU, h] using hc
  · simpa [LRUCache.evictLRU, h] using delete_wf hc k

theorem evictLRU_length_lt {c : LRUCache} (h : c.cache ≠ []) :
    c.evictLRU.cache.length < c.cache.length := by
  obtain ⟨k, t, heq, hmem⟩ := oldestAcc_none_exists h
  obtain ⟨v, hv⟩ := exists_mapGet_of_mem_keys hmem
  simp only [LRUCache.evictLRU, heq, LRUCache.delete, hv]
  exact length_mapDelete_lt hv

theorem evictLoop_maxSize (s : Nat) :
    ∀ (fuel : Nat) (c : LRUCache),
      (LRUCache.evictLoop s fuel c).maxSize = c.maxSize := by
  intro fuel
  induction fuel with
  | zero => intro c; rfl
  | succ n ih =>
    intro c
    by_cases hcond :
        c.currentSize + (s : Int) > (c.maxSize : Int) ∧ c.cache ≠ []
    · rw [show LRUCache.evictLoop s (n + 1) c =
          LRUCache.evictLoop s n c.evictLRU from by
        simp [LRUCache.evictLoop, hcond]]
      rw [ih c.evictLRU, evictLRU_maxSize]
    · simp [LRUCache.evictLoop, hcond]

theorem evictLoop_post (s : Nat) :
    ∀ (fuel : Nat) (c : LRUCache), c.Wf → c.cache.length ≤ fuel →
      (LRUCache.evictLoop s fuel c).Wf ∧
        ((LRUCache.evictLoop s fuel c).currentSize + (s : Int) ≤
            ((LRUCache.evictLoop s fuel c).maxSize : Int) ∨
          (LRUCache.evictLoop s fuel c).cache = []) := by
  intro fuel
  induction fuel with
  | zero =>
    intro c hc hlen
    refine ⟨hc, Or.inr ?_⟩
    exact List.eq_nil_of_length_eq_zero (Nat.le_zero.mp hlen)
  | succ n ih =>
    intro c hc hlen
    by_cases hcond :
        c.currentSize + (s : Int) > (c.maxSize : Int) ∧ c.cache ≠ []
    · rw [show LRUCache.evictLoop s (n + 1) c =
          LRUCache.evictLoop s n c.evictLRU from by
        simp [LRUCache.evictLoop, hcond]]
      refine ih c.evictLRU (evictLRU_wf hc) ?_
      have := evictLRU_length_lt hcond.2
      omega
    · rw [show LRUCache.evictLoop s (n + 1) c = c from by
        simp [LRUCache.evictLoop, hcond]]
      refine ⟨hc, ?_⟩
      rcases not_and_or.mp hcond with h | h
      · exact Or.inl (by omega)
      · exact Or.inr (not_not.mp h)

theorem evictLoop_eq_self {s : Nat} {c : LRUCache}
    (h : c.currentSize + (s : Int) ≤ (c.maxSize : Int)) (fuel : Nat) :
    LRUCache.evictLoop s fuel c = c := by
  cases fuel with
  | zero => rfl
  | succ n =>
    simp only [LRUCache.evictLoop]
    rw [if_neg]
    rintro ⟨h1, -⟩
    omega

theorem evictLoop_drain {s : Nat} {c : LRUCache} (hc : c.Wf)
    (hbig : s > c.maxSize) :
    (LRUCache.evictLoop s c.cache.length c).cache = [] := by
  obtain ⟨hwf, hpost⟩ := evictLoop_post s c.cache.length c hc le_rfl
  rcases hpost with h | h
  · exfalso
    have h0 : 0 ≤ (LRUCache.evictLoop s c.cache.length c).currentSize := by
      rw [hwf.size_eq]; exact entrySizes_nonneg _
    have hmax := evictLoop_maxSize s c.cache.length c
    omega
  · exact h

theorem get_wf {c : LRUCache} (hc : c.Wf) (key : String) (now : Nat) :
    (c.get key now).1.Wf := by
  rcases h : mapGet key c.cache with _ | cached
  · simpa [LRUCache.get, h] using hc
  · have hnot : key ∉ keysOf (mapDelete key c.cache) :=
      fun hm => (mem_keysOf_mapDelete.mp hm).2 rfl
    have hnone : mapGet key (mapDelete key c.cache) = none :=
      (mapGet_none_iff _ _).mpr hnot
    have hsub := mapDelete_sublist key c.cache
    have hndel : (keysOf (mapDelete key c.cache)).Nodup := by
      have h2 : (keysOf c.cache).Nodup := hc.nodup
      simp only [keysOf] at h2 ⊢
      exact (hsub.map _).nodup h2
    simp only [LRUCache.get, h]
    refine ⟨?_, ?_, ?_⟩
    · simp only [mapSet_eq_append _ hnone, entrySizes_append,
        entrySizes_mapDelete hc.nodup h, entrySizes_cons, entrySizes_nil,
        hc.size_eq]
      ring
    · rw [mapSet_eq_append _ hnone]
      simp only [keysOf, List.map_append, List.map_cons, List.map_nil]
      rw [List.nodup_append]
      refine ⟨by simpa [keysOf] using hndel, List.nodup_singleton _, ?_⟩
      intro a ha hb
      simp only [List.mem_singleton] at hb
      subst hb
      exact hnot (by simpa [keysOf] using ha)
    · intro kv hkv
      rcases mem_mapSet hkv with hm | hm
      · exact hc.hits kv (hsub.subset hm)
      · subst hm
        exact Nat.succ_le_succ (Nat.zero_le _)

theorem set_wf {c : LRUCache} (hc : c.Wf) (key : String) (model : LoadedModel)
    (now : Nat) : (c.set key model now).1.Wf := by
  have h1 : (LRUCache.evictLoop model.info.size c.cache.length c).Wf :=
    (evictLoop_post _ _ _ hc le_rfl).1
  simp only [LRUCache.set]
  set c1 := LRUCache.evictLoop model.info.size c.cache.length c with hc1
  by_cases hbig : model.info.size > c1.maxSize
  · rw [if_pos hbig]
    exact h1
  · rw [if_neg hbig]
    rcases hget : mapGet key c1.cache with _ | existing
    · simp only [hget]
      refine ⟨?_, ?_, ?_⟩
      · simp only [mapSet_eq_append _ hget, entrySizes_append, entrySizes_cons,
          entrySizes_nil, h1.size_eq]
        ring
      · rw [mapSet_eq_append _ hget]
        simp only [keysOf, List.map_append, List.map_cons, List.map_nil]
        rw [List.nodup_append]
        refine ⟨by simpa [keysOf] using h1.nodup, List.nodup_singleton _, ?_⟩
        intro a ha hb
        simp only [List.mem_singleton] at hb
        rw [hb] at ha
        exact (mapGet_none_iff key c1.cache).mp hget (by simpa [keysOf] using ha)
      · intro kv hkv
        rcases mem_mapSet hkv with hm | hm
        · exact h1.hits kv hm
        · subst hm
          exact le_refl 1
    · have hsome : (mapGet key c1.cache).isSome := by rw [hget]; rfl
      simp only [hget]
      refine ⟨?_, ?_, ?_⟩
      · rw [mapSet_of_some _ hsome, entrySizes_replaceMap _ h1.nodup hget,
          h1.size_eq]
      · rw [mapSet_of_some _ hsome, keysOf_replaceMap]
        exact h1.nodup
      · intro kv hkv
        rcases mem_mapSet hkv with hm | hm
        · exact h1.hits kv hm
        · subst hm
          exact le_refl 1

theorem clear_wf {c : LRUCache} (_hc : c.Wf) : c.clear.Wf := by
  refine ⟨rfl, by simp [LRUCache.clear, keysOf_nil], ?_⟩
  intro kv hkv
  simp [LRUCache.clear] at hkv

theorem foldl_delete_wf :
    ∀ (keys : List String) {c : LRUCache}, c.Wf →
      (keys.foldl (fun acc k => acc.delete k) c).Wf
  | [], _, hc => hc
  | k :: rest, _, hc => foldl_delete_wf rest (delete_wf hc k)

theorem prune_wf {c : LRUCache} (hc : c.Wf) (now maxAge : Nat) :
    (c.prune now maxAge).1.Wf :=
  foldl_delete_wf _ hc

theorem reachable_wf {c : LRUCache} (h : c.Reachable) : c.Wf := by
  induction h with
  | init m => exact init_wf m
  | get key now _ ih => exact get_wf ih key now
  | set key model now _ ih => exact set_wf ih key model now
  | del key _ ih => exact delete_wf ih key
  | clear _ ih => exact clear_wf ih
  | prune now maxAge _ ih => exact prune_wf ih now maxAge

/-! ### Behaviour of `set` -/

theorem mapGet_append_single_ne {α : Type} {k key : String} (v : α)
    (l : List (String × α)) (hne : k ≠ key) :
    mapGet k (l ++ [(key, v)]) = mapGet k l := by
  induction l with
  | nil =>
    simp only [List.nil_append, mapGet]
    rw [if_neg (fun h => hne h.symm)]
  | cons kv rest ih =>
    obtain ⟨k', w⟩ := kv
    by_cases h : k' = k
    · simp [mapGet, h]
    · simp [mapGet, h, ih]

theorem mapGet_replaceMap_ne {α : Type} {k key : String} (v : α)
    (l : List (String × α)) (hne : k ≠ key) :
    mapGet k (l.map (fun kv => if kv.1 = key then (key, v) else kv)) =
      mapGet k l := by
  induction l with
  | nil => rfl
  | cons kv rest ih =>
    obtain ⟨k', w⟩ := kv
    by_cases h : k' = key
    · subst h
      have hkk : ¬ k' = k := fun hh => hne hh.symm
      rw [List.map_cons]
      have hhead : (if ((k', w) : String × α).1 = k' then (k', v) else (k', w))
          = (k', v) := by simp
      rw [hhead,
        show mapGet k ((k', v) ::
            List.map (fun kv => if kv.1 = k' then (k', v) else kv) rest) =
          mapGet k (List.map (fun kv => if kv.1 = k' then (k', v) else kv) rest)
          from by simp [mapGet, hkk],
        ih]
      simp [mapGet, hkk]
    · rw [List.map_cons]
      have hhead : (if ((k', w) : String × α).1 = key then (key, v) else (k', w))
          = (k', w) := by simp [h]
      rw [hhead]
      by_cases hk : k' = k
      · simp [mapGet, hk]
      · simp [mapGet, hk, ih]

theorem mapGet_mapSet_ne {α : Type} {k key : String} (v : α)
    (l : List (String × α)) (hne : k ≠ key) :
    mapGet k (mapSet key v l) = mapGet k l := by
  by_cases hs : (mapGet key l).isSome
  · rw [mapSet_of_some _ hs, mapGet_replaceMap_ne _ _ hne]
  · have hnone : mapGet key l = none := by
      rcases h : mapGet key l with _ | w
      · rfl
      · rw [h] at hs; simp at hs
    rw [mapSet_eq_append _ hnone, mapGet_append_single_ne _ _ hne]

theorem set_maxSize (c : LRUCache) (key : String) (model : LoadedModel)
    (now : Nat) : (c.set key model now).1.maxSize = c.maxSize := by
  have hmax := evictLoop_maxSize model.info.size c.cache.length c
  simp only [LRUCache.set]
  set c1 := LRUCache.evictLoop model.info.size c.cache.length c with hc1
  by_cases hbig : model.info.size > c1.maxSize
  · rw [if_pos hbig]
    exact hmax
  · rw [if_neg hbig]
    rcases hget : mapGet key c1.cache with _ | existing <;>
      simp only [hget] <;> exact hmax

theorem set_ok_size_bound {c : LRUCache} (hc : c.Wf) (key : String)
    (model : LoadedModel) (now : Nat)
    (hok : (c.set key model now).2 = Except.ok ()) :
    (c.set key model now).1.currentSize ≤
      ((c.set key model now).1.maxSize : Int) := by
  have hpost := evictLoop_post model.info.size c.cache.length c hc le_rfl
  simp only [LRUCache.set] at hok ⊢
  set c1 := LRUCache.evictLoop model.info.size c.cache.length c with hc1
  by_cases hbig : model.info.size > c1.maxSize
  · rw [if_pos hbig] at hok
    exact absurd hok (by simp)
  · rw [if_neg hbig] at hok ⊢
    rcases hget : mapGet key c1.cache with _ | existing
    · simp only [hget]
      rcases hpost.2 with hle | hempty
      · simpa using hle
      · have h0 : c1.currentSize = 0 := by
          rw [hpost.1.size_eq, hempty]; rfl
        simp only [h0]
        omega
    · simp only [hget]
      rcases hpost.2 with hle | hempty
      · have h0 : (0 : Int) ≤ (existing.entry.size : Int) := by positivity
        omega
      · rw [hempty] at hget
        simp [mapGet] at hget

theorem set_oversized {c : LRUCache} (hc : c.Wf) (key : String)
    (model : LoadedModel) (now : Nat) (hbig : model.info.size > c.maxSize) :
    (c.set key model now).2 =
        Except.error (LRUCache.capacityError model.info.size c.maxSize) ∧
      (c.set key model now).1.cache = [] := by
  have hmax := evictLoop_maxSize model.info.size c.cache.length c
  have hdrain := evictLoop_drain hc hbig
  simp only [LRUCache.set]
  set c1 := LRUCache.evictLoop model.info.size c.cache.length c with hc1
  have hbig1 : model.info.size > c1.maxSize := by rw [hc1, hmax]; exact hbig
  rw [if_pos hbig1]
  refine ⟨?_, ?_⟩
  · rw [show c1.maxSize = c.maxSize from by rw [hc1, hmax]]
  · rw [hc1]
    exact hdrain

theorem set_fresh_fits {c : LRUCache} (hnn : 0 ≤ c.currentSize)
    {key : String} {model : LoadedModel} {now : Nat}
    (hfit : c.currentSize + (model.info.size : Int) ≤ (c.maxSize : Int))
    (hfresh : mapGet key c.cache = none) :
    c.set key model now =
      ({ c with
          cache := c.cache ++
            [(key, ⟨model, ⟨key, model.id, model.info.size, now, 1⟩⟩)],
          currentSize := c.currentSize + (model.info.size : Int) },
        Except.ok ()) := by
  have hsize : ¬ model.info.size > c.maxSize := by omega
  simp only [LRUCache.set, evictLoop_eq_self hfit]
  rw [if_neg hsize]
  simp only [hfresh, mapSet_eq_append _ hfresh]

theorem evictLoop_step {s : Nat} {c : LRUCache} (fuel : Nat)
    (hgt : c.currentSize + (s : Int) > (c.maxSize : Int))
    (hne : c.cache ≠ []) :
    LRUCache.evictLoop s (fuel + 1) c = LRUCache.evictLoop s fuel c.evictLRU
    := by
  simp [LRUCache.evictLoop, hgt, hne]

/-! ### Claim C1 — eviction bound -/

/-- C1: on any reachable cache, a `set` that returns without error
leaves the sum of entry sizes (equal to `currentSize`) at most
`maxSize`; and a `set` whose model size alone exceeds `maxSize` fails
with the capacity-exceeded error and does not install the model under
its key. -/
theorem lruCache_set_respects_capacity {c : LRUCache} (h : c.Reachable)
    (key : String) (model : LoadedModel) (now : Nat) :
    ((c.set key model now).2 = Except.ok () →
      entrySizes (c.set key model now).1.cache ≤
          ((c.set key model now).1.maxSize : Int) ∧
        (c.set key model now).1.currentSize ≤
          ((c.set key model now).1.maxSize : Int)) ∧
    (model.info.size > c.maxSize →
      (c.set key model now).2 =
          Except.error (LRUCache.capacityError model.info.size c.maxSize) ∧
        mapGet key (c.set key model now).1.cache = none) := by
  have hc := reachable_wf h
  constructor
  · intro hok
    have hb := set_ok_size_bound hc key model now hok
    have hwf := set_wf hc key model now
    exact ⟨by rw [← hwf.size_eq]; exact hb, hb⟩
  · intro hbig
    obtain ⟨he, hempty⟩ := set_oversized hc key model now hbig
    refine ⟨he, ?_⟩
    rw [hempty]
    rfl

/-- Concrete witness for the capacity-bound theorem: a 5-byte model
inserted into a fresh 1 MB cache. -/
theorem lruCache_set_respects_capacity_witness :
    entrySizes (((LRUCache.init 1).set "A" ⟨"mA", ⟨"gguf", 5⟩⟩ 0).1.cache) ≤
        ((((LRUCache.init 1).set "A" ⟨"mA", ⟨"gguf", 5⟩⟩ 0).1.maxSize : Int)) ∧
      ((LRUCache.init 1).set "A" ⟨"mA", ⟨"gguf", 5⟩⟩ 0).1.currentSize ≤
        ((((LRUCache.init 1).set "A" ⟨"mA", ⟨"gguf", 5⟩⟩ 0).1.maxSize : Int)) :=
  (lruCache_set_respects_capacity (LRUCache.Reachable.init 1) "A"
    ⟨"mA", ⟨"gguf", 5⟩⟩ 0).1 rfl

/-! ### Claim C2 — eviction discipline -/

/-- C2 counterexample: with 1 MB capacity, after caching a 0.5 MB model
under "A", a doomed 2 MB `set` (its size alone exceeds capacity, so no
eviction could ever make it fit) nevertheless evicts and unloads entry
"A" before failing: the failing `set` evicted an entry that was not
required. -/
theorem lruCache_overeviction_counterexample :
    (((LRUCache.init 1).set "A" ⟨"mA", ⟨"gguf", 500000⟩⟩ 0).1.cache.length
      = 1)
    ∧ ((((LRUCache.init 1).set "A" ⟨"mA", ⟨"gguf", 500000⟩⟩ 0).1.set "B"
        ⟨"mB", ⟨"gguf", 2000000⟩⟩ 1).2 =
        Except.error (LRUCache.capacityError 2000000 1048576))
    ∧ ((((LRUCache.init 1).set "A" ⟨"mA", ⟨"gguf", 500000⟩⟩ 0).1.set "B"
        ⟨"mB", ⟨"gguf", 2000000⟩⟩ 1).1.cache = [])
    ∧ ((((LRUCache.init 1).set "A" ⟨"mA", ⟨"gguf", 500000⟩⟩ 0).1.set "B"
        ⟨"mB", ⟨"gguf", 2000000⟩⟩ 1).1.unloadLog = ["mA"]) :=
  ⟨rfl, rfl, rfl, rfl⟩

/-- C2 (amended): on any reachable cache, `set` never leaves
`currentSize` negative; a `set` whose insert already fits within
capacity evicts nothing (every other key's binding is unchanged); but a
`set` whose model size exceeds total capacity drains the entire cache
before failing, rather than evicting only what the (impossible) insert
required. -/
theorem lruCache_eviction_discipline {c : LRUCache} (h : c.Reachable)
    (key : String) (model : LoadedModel) (now : Nat) :
    (0 ≤ (c.set key model now).1.currentSize) ∧
    (c.currentSize + (model.info.size : Int) ≤ (c.maxSize : Int) →
      ∀ k, k ≠ key →
        mapGet k (c.set key model now).1.cache = mapGet k c.cache) ∧
    (model.info.size > c.maxSize →
      (c.set key model now).2 ≠ Except.ok () ∧
        (c.set key model now).1.cache = []) := by
  have hc := reachable_wf h
  refine ⟨?_, ?_, ?_⟩
  · have hwf := set_wf hc key model now
    rw [hwf.size_eq]
    exact entrySizes_nonneg _
  · intro hfit k hk
    have hsize : ¬ model.info.size > c.maxSize := by
      have hs := hc.size_eq
      have hn := entrySizes_nonneg c.cache
      omega
    simp only [LRUCache.set, evictLoop_eq_self hfit]
    rw [if_neg hsize]
    rcases hget : mapGet key c.cache with _ | existing
    · simp only [hget]
      exact mapGet_mapSet_ne _ _ hk
    · simp only [hget]
      exact mapGet_mapSet_ne _ _ hk
  · intro hbig
    obtain ⟨he, hempty⟩ := set_oversized hc key model now hbig
    refine ⟨?_, hempty⟩
    rw [he]
    simp

/-- Concrete witness for the amended eviction-discipline theorem: the
oversized-insert clause at a fresh 1 MB cache. -/
theorem lruCache_eviction_discipline_witness :
    ((LRUCache.init 1).set "B" ⟨"mB", ⟨"gguf", 2000000⟩⟩ 0).2 ≠
        Except.ok () ∧
      ((LRUCache.init 1).set "B" ⟨"mB", ⟨"gguf", 2000000⟩⟩ 0).1.cache = [] :=
  (lruCache_eviction_discipline (LRUCache.Reachable.init 1) "B"
    ⟨"mB", ⟨"gguf", 2000000⟩⟩ 0).2.2 (by decide)

/-! ### Claim C9 — degenerate hit rate -/

/-- C9: `getStats` computes the hit rate as total hits divided by total
hits — 1 whenever the accumulated hit count is positive and 0 when it is
zero; since `set` creates every entry with `hitCount = 1`, every
non-empty reachable cache reports hit rate 1 and an empty cache reports
0, regardless of `get` activity. -/
theorem lruCache_getStats_hitRate_degenerate {c : LRUCache}
    (h : c.Reachable) :
    (0 < (c.cache.map (fun kv => kv.2.entry.hitCount)).sum →
      c.getStats.hitRate = 1) ∧
    ((c.cache.map (fun kv => kv.2.entry.hitCount)).sum = 0 →
      c.getStats.hitRate = 0) ∧
    (c.cache ≠ [] → c.getStats.hitRate = 1) ∧
    (c.cache = [] → c.getStats.hitRate = 0) := by
  have hc := reachable_wf h
  have hpos : ∀ hits : Nat, 0 < hits →
      (if hits > 0 then ((hits : Rat) / (hits : Rat)) else 0) = 1 := by
    intro hits hh
    rw [if_pos hh, div_self]
    exact Nat.cast_ne_zero.mpr hh.ne'
  refine ⟨?_, ?_, ?_, ?_⟩
  · intro hh
    simp only [LRUCache.getStats]
    exact hpos _ hh
  · intro hh
    simp only [LRUCache.getStats]
    rw [if_neg (by omega)]
  · intro hne
    rcases hcache : c.cache with _ | ⟨kv, rest⟩
    · exact absurd hcache hne
    · have hmem : kv ∈ c.cache := by
        rw [hcache]; exact List.mem_cons_self _ _
      have h1 := hc.hits kv hmem
      have hsum : 0 < (c.cache.map (fun kv => kv.2.entry.hitCount)).sum := by
        rw [hcache]
        simp only [List.map_cons, List.sum_cons]
        omega
      simp only [LRUCache.getStats]
      exact hpos _ hsum
  · intro hempty
    simp only [LRUCache.getStats, hempty]
    norm_num

/-- Concrete witness for the degenerate hit-rate theorem: one entry,
never read through `get`, already reports a hit rate of 1. -/
theorem lruCache_getStats_hitRate_witness :
    (((LRUCache.init 1).set "A" ⟨"mA", ⟨"gguf", 5⟩⟩ 0).1).getStats.hitRate
      = 1 :=
  (lruCache_getStats_hitRate_degenerate
    (LRUCache.Reachable.set "A" ⟨"mA", ⟨"gguf", 5⟩⟩ 0
      (LRUCache.Reachable.init 1))).2.2.1 (by decide)

/-! ### Claim C3 — LRU eviction order -/

/-- Generic description of a successful `set`: if the eviction loop
carries `c` to `cE`, the insert fits in `cE`, and `key` is unbound
there, `set` appends the fresh entry to `cE`. -/
theorem set_eq_of_evictLoop {c cE : LRUCache} {key : String}
    {model : LoadedModel} {now : Nat}
    (hloop : LRUCache.evictLoop model.info.size c.cache.length c = cE)
    (hnn : 0 ≤ cE.currentSize)
    (hfit : cE.currentSize + (model.info.size : Int) ≤ (cE.maxSize : Int))
    (hfresh : mapGet key cE.cache = none) :
    c.set key model now =
      ({ cE with
          cache := cE.cache ++
            [(key, ⟨model, ⟨key, model.id, model.info.size, now, 1⟩⟩)],
          currentSize := cE.currentSize + (model.info.size : Int) },
        Except.ok ()) := by
  have hsize : ¬ model.info.size > cE.maxSize := by omega
  simp only [LRUCache.set, hloop]
  rw [if_neg hsize]
  simp only [hfresh, mapSet_eq_append _ hfresh]

/-- A cache binding as built by `set`: `(key, { model, entry })`. -/
def bindingOf (key id fmt : String) (size t hits : Nat) : String × Cached :=
  (key, ⟨⟨id, ⟨fmt, size⟩⟩, ⟨key, id, size, t, hits⟩⟩)

/-- Cache state with the megabyte-scaled capacity of the constructor. -/
def stateOf (l : List (String × Cached)) (mb : Nat) (cur : Int)
    (log : List String) : LRUCache :=
  ⟨l, mb * 1024 * 1024, cur, log⟩

/-- The LRU-order scenario from the spec: insert models under keys "A",
"B", "C" at times `t1`, `t2`, `t3`, read "A" through `get` at `t4`, then
insert "D" at `t5`. -/
def lruScenario (mb sA sB sC sD t1 t2 t3 t4 t5 : Nat) :
    LRUCache × Except String Unit :=
  let c0 := LRUCache.init mb
  let c1 := (c0.set "A" ⟨"mA", ⟨"gguf", sA⟩⟩ t1).1
  let c2 := (c1.set "B" ⟨"mB", ⟨"gguf", sB⟩⟩ t2).1
  let c3 := (c2.set "C" ⟨"mC", ⟨"gguf", sC⟩⟩ t3).1
  let c4 := (c3.get "A" t4).1
  c4.set "D" ⟨"mD", ⟨"gguf", sD⟩⟩ t5

/-- C3: with A, B, C inserted in order (each insert fitting within
capacity), then A read through `get` (which bumps its timestamp and
moves it to the most-recently-used position), a subsequent insert of D
that forces exactly one eviction evicts B — the least recently used —
and neither A nor C: the final map order is C, A, D and only B's model
was unloaded. -/
theorem lruCache_evicts_least_recently_used
    (mb sA sB sC sD t1 t2 t3 t4 t5 : Nat)
    (hA : sA <= mb * 1024 * 1024)
    (hB : sA + sB <= mb * 1024 * 1024)
    (hC : sA + sB + sC <= mb * 1024 * 1024)
    (hp : mb * 1024 * 1024 < sA + sB + sC + sD)
    (hone : sA + sC + sD <= mb * 1024 * 1024)
    (ht23 : t2 <= t3) (ht34 : t3 <= t4) :
    (lruScenario mb sA sB sC sD t1 t2 t3 t4 t5).2 = Except.ok () /\
      keysOf (lruScenario mb sA sB sC sD t1 t2 t3 t4 t5).1.cache =
        ["C", "A", "D"] /\
      (lruScenario mb sA sB sC sD t1 t2 t3 t4 t5).1.unloadLog = ["mB"] := by
  have hnn1 : (0 : Int) <= (LRUCache.init mb).currentSize := by
    show (0 : Int) <= 0
    omega
  have hfit1 : (LRUCache.init mb).currentSize +
      (((⟨"mA", ⟨"gguf", sA⟩⟩ : LoadedModel)).info.size : Int) <=
      ((LRUCache.init mb).maxSize : Int) := by
    show (0 : Int) + (sA : Int) <= ((mb * 1024 * 1024 : Nat) : Int)
    push_cast
    omega
  have e1 : ((LRUCache.init mb).set "A" ⟨"mA", ⟨"gguf", sA⟩⟩ t1).1 =
      stateOf [bindingOf "A" "mA" "gguf" sA t1 1] mb (0 + (sA : Int)) [] := by
    rw [set_fresh_fits hnn1 hfit1 rfl]
    rfl
  have hnn2 : (0 : Int) <=
      (stateOf [bindingOf "A" "mA" "gguf" sA t1 1] mb
        (0 + (sA : Int)) []).currentSize := by
    show (0 : Int) <= 0 + (sA : Int)
    positivity
  have hfit2 : (stateOf [bindingOf "A" "mA" "gguf" sA t1 1] mb
        (0 + (sA : Int)) []).currentSize +
      (((⟨"mB", ⟨"gguf", sB⟩⟩ : LoadedModel)).info.size : Int) <=
      ((stateOf [bindingOf "A" "mA" "gguf" sA t1 1] mb
        (0 + (sA : Int)) []).maxSize : Int) := by
    show (0 : Int) + (sA : Int) + (sB : Int) <= ((mb * 1024 * 1024 : Nat) : Int)
    push_cast
    omega
  have hfresh2 : mapGet "B"
      (stateOf [bindingOf "A" "mA" "gguf" sA t1 1] mb
        (0 + (sA : Int)) []).cache = none := rfl
  have e2 : ((stateOf [bindingOf "A" "mA" "gguf" sA t1 1] mb
        (0 + (sA : Int)) []).set "B" ⟨"mB", ⟨"gguf", sB⟩⟩ t2).1 =
      stateOf [bindingOf "A" "mA" "gguf" sA t1 1,
        bindingOf "B" "mB" "gguf" sB t2 1] mb
        (0 + (sA : Int) + (sB : Int)) [] := by
    rw [set_fresh_fits hnn2 hfit2 hfresh2]
    rfl
  have hnn3 : (0 : Int) <=
      (stateOf [bindingOf "A" "mA" "gguf" sA t1 1,
        bindingOf "B" "mB" "gguf" sB t2 1] mb
        (0 + (sA : Int) + (sB : Int)) []).currentSize := by
    show (0 : Int) <= 0 + (sA : Int) + (sB : Int)
    positivity
  have hfit3 : (stateOf [bindingOf "A" "mA" "gguf" sA t1 1,
        bindingOf "B" "mB" "gguf" sB t2 1] mb
        (0 + (sA : Int) + (sB : Int)) []).currentSize +
      (((⟨"mC", ⟨"gguf", sC⟩⟩ : LoadedModel)).info.size : Int) <=
      ((stateOf [bindingOf "A" "mA" "gguf" sA t1 1,
        bindingOf "B" "mB" "gguf" sB t2 1] mb
        (0 + (sA : Int) + (sB : Int)) []).maxSize : Int) := by
    show (0 : Int) + (sA : Int) + (sB : Int) + (sC : Int) <=
      ((mb * 1024 * 1024 : Nat) : Int)
    push_cast
    omega
  have hfresh3 : mapGet "C"
      (stateOf [bindingOf "A" "mA" "gguf" sA t1 1,
        bindingOf "B" "mB" "gguf" sB t2 1] mb
        (0 + (sA : Int) + (sB : Int)) []).cache = none := rfl
  have e3 : ((stateOf [bindingOf "A" "mA" "gguf" sA t1 1,
        bindingOf "B" "mB" "gguf" sB t2 1] mb
        (0 + (sA : Int) + (sB : Int)) []).set "C"
        ⟨"mC", ⟨"gguf", sC⟩⟩ t3).1 =
      stateOf [bindingOf "A" "mA" "gguf" sA t1 1,
        bindingOf "B" "mB" "gguf" sB t2 1,
        bindingOf "C" "mC" "gguf" sC t3 1] mb
        (0 + (sA : Int) + (sB : Int) + (sC : Int)) [] := by
    rw [set_fresh_fits hnn3 hfit3 hfresh3]
    rfl
  have e4 : ((stateOf [bindingOf "A" "mA" "gguf" sA t1 1,
        bindingOf "B" "mB" "gguf" sB t2 1,
        bindingOf "C" "mC" "gguf" sC t3 1] mb
        (0 + (sA : Int) + (sB : Int) + (sC : Int)) []).get "A" t4).1 =
      stateOf [bindingOf "B" "mB" "gguf" sB t2 1,
        bindingOf "C" "mC" "gguf" sC t3 1,
        bindingOf "A" "mA" "gguf" sA t4 2] mb
        (0 + (sA : Int) + (sB : Int) + (sC : Int)) [] := rfl
  have h_old : LRUCache.oldestAcc none
      [bindingOf "B" "mB" "gguf" sB t2 1,
       bindingOf "C" "mC" "gguf" sC t3 1,
       bindingOf "A" "mA" "gguf" sA t4 2] = some ("B", t2) := by
    show LRUCache.oldestAcc (some ("B", t2))
      [bindingOf "C" "mC" "gguf" sC t3 1,
       bindingOf "A" "mA" "gguf" sA t4 2] = some ("B", t2)
    rw [show LRUCache.oldestAcc (some ("B", t2))
        [bindingOf "C" "mC" "gguf" sC t3 1,
         bindingOf "A" "mA" "gguf" sA t4 2] =
      LRUCache.oldestAcc
        (if t3 < t2 then some ("C", t3) else some ("B", t2))
        [bindingOf "A" "mA" "gguf" sA t4 2] from rfl,
      if_neg (by omega : ¬ t3 < t2)]
    rw [show LRUCache.oldestAcc (some ("B", t2))
        [bindingOf "A" "mA" "gguf" sA t4 2] =
      LRUCache.oldestAcc
        (if t4 < t2 then some ("A", t4) else some ("B", t2)) [] from rfl,
      if_neg (by omega : ¬ t4 < t2)]
    rfl
  have h_ev : (stateOf [bindingOf "B" "mB" "gguf" sB t2 1,
        bindingOf "C" "mC" "gguf" sC t3 1,
        bindingOf "A" "mA" "gguf" sA t4 2] mb
        (0 + (sA : Int) + (sB : Int) + (sC : Int)) []).evictLRU =
      stateOf [bindingOf "C" "mC" "gguf" sC t3 1,
        bindingOf "A" "mA" "gguf" sA t4 2] mb
        (0 + (sA : Int) + (sB : Int) + (sC : Int) - (sB : Int)) ["mB"] := by
    simp only [LRUCache.evictLRU, stateOf]
    rw [h_old]
    rfl
  have hgt4 : (stateOf [bindingOf "B" "mB" "gguf" sB t2 1,
        bindingOf "C" "mC" "gguf" sC t3 1,
        bindingOf "A" "mA" "gguf" sA t4 2] mb
        (0 + (sA : Int) + (sB : Int) + (sC : Int)) []).currentSize +
      (sD : Int) >
      ((stateOf [bindingOf "B" "mB" "gguf" sB t2 1,
        bindingOf "C" "mC" "gguf" sC t3 1,
        bindingOf "A" "mA" "gguf" sA t4 2] mb
        (0 + (sA : Int) + (sB : Int) + (sC : Int)) []).maxSize : Int) := by
    show (0 : Int) + (sA : Int) + (sB : Int) + (sC : Int) + (sD : Int) >
      ((mb * 1024 * 1024 : Nat) : Int)
    push_cast
    omega
  have hnn5 : (0 : Int) <=
      (stateOf [bindingOf "C" "mC" "gguf" sC t3 1,
        bindingOf "A" "mA" "gguf" sA t4 2] mb
        (0 + (sA : Int) + (sB : Int) + (sC : Int) - (sB : Int))
        ["mB"]).currentSize := by
    show (0 : Int) <=
      0 + (sA : Int) + (sB : Int) + (sC : Int) - (sB : Int)
    have h0A : (0 : Int) <= (sA : Int) := by positivity
    have h0C : (0 : Int) <= (sC : Int) := by positivity
    omega
  have hfit5 : (stateOf [bindingOf "C" "mC" "gguf" sC t3 1,
        bindingOf "A" "mA" "gguf" sA t4 2] mb
        (0 + (sA : Int) + (sB : Int) + (sC : Int) - (sB : Int))
        ["mB"]).currentSize +
      (((⟨"mD", ⟨"gguf", sD⟩⟩ : LoadedModel)).info.size : Int) <=
      ((stateOf [bindingOf "C" "mC" "gguf" sC t3 1,
        bindingOf "A" "mA" "gguf" sA t4 2] mb
        (0 + (sA : Int) + (sB : Int) + (sC : Int) - (sB : Int))
        ["mB"]).maxSize : Int) := by
    show (0 : Int) + (sA : Int) + (sB : Int) + (sC : Int) - (sB : Int) +
      (sD : Int) <= ((mb * 1024 * 1024 : Nat) : Int)
    push_cast
    omega
  have hfresh5 : mapGet "D"
      (stateOf [bindingOf "C" "mC" "gguf" sC t3 1,
        bindingOf "A" "mA" "gguf" sA t4 2] mb
        (0 + (sA : Int) + (sB : Int) + (sC : Int) - (sB : Int))
        ["mB"]).cache = none := rfl
  have h_loop : LRUCache.evictLoop
      ((⟨"mD", ⟨"gguf", sD⟩⟩ : LoadedModel)).info.size
      (stateOf [bindingOf "B" "mB" "gguf" sB t2 1,
        bindingOf "C" "mC" "gguf" sC t3 1,
        bindingOf "A" "mA" "gguf" sA t4 2] mb
        (0 + (sA : Int) + (sB : Int) + (sC : Int)) []).cache.length
      (stateOf [bindingOf "B" "mB" "gguf" sB t2 1,
        bindingOf "C" "mC" "gguf" sC t3 1,
        bindingOf "A" "mA" "gguf" sA t4 2] mb
        (0 + (sA : Int) + (sB : Int) + (sC : Int)) []) =
      stateOf [bindingOf "C" "mC" "gguf" sC t3 1,
        bindingOf "A" "mA" "gguf" sA t4 2] mb
        (0 + (sA : Int) + (sB : Int) + (sC : Int) - (sB : Int)) ["mB"] := by
    show LRUCache.evictLoop sD (2 + 1)
      (stateOf [bindingOf "B" "mB" "gguf" sB t2 1,
        bindingOf "C" "mC" "gguf" sC t3 1,
        bindingOf "A" "mA" "gguf" sA t4 2] mb
        (0 + (sA : Int) + (sB : Int) + (sC : Int)) []) = _
    rw [evictLoop_step 2 hgt4 (by simp [stateOf]), h_ev,
      evictLoop_eq_self hfit5]
  simp only [lruScenario]
  rw [e1, e2, e3, e4, set_eq_of_evictLoop h_loop hnn5 hfit5 hfresh5]
  exact ⟨rfl, rfl, rfl⟩

/-- Concrete witness for the LRU-order theorem: 1 MB capacity, four
300000-byte models, timestamps 1 to 5. -/
theorem lruCache_evicts_least_recently_used_witness :
    (lruScenario 1 300000 300000 300000 300000 1 2 3 4 5).2 = Except.ok ()
    /\ keysOf (lruScenario 1 300000 300000 300000 300000 1 2 3 4 5).1.cache
        = ["C", "A", "D"]
    /\ (lruScenario 1 300000 300000 300000 300000 1 2 3 4 5).1.unloadLog
        = ["mB"] :=
  lruCache_evicts_least_recently_used 1 300000 300000 300000 300000 1 2 3 4 5
    (by decide) (by decide) (by decide) (by decide) (by decide) (by decide)
    (by decide)

/-! ### ModelRegistry (dist/runtime/ModelRegistry.js) -/

/-- `AdapterCapabilities` as consulted by adapter scoring (the other
members — max context length, file extensions — are never read by
`selectBestAdapter`). -/
structure AdapterCapabilities where
  supportsStreaming : Bool
  supportsGPU : Bool
  supportsQuantization : List String
deriving Repr, DecidableEq

/-- `HardwareInfo` as consulted by adapter scoring (only `hasGPU` is
read; platform, NPU, memory and core counts are not). -/
structure HardwareInfo where
  hasGPU : Bool
deriving Repr, DecidableEq

/-- A registered `ModelAdapter`, restricted to the members that
`selectBestAdapter` uses: format tag, the `canHandle` predicate, and
`getCapabilities()`. -/
structure Adapter where
  format : String
  canHandle : String → Option ModelInfo → Bool
  capabilities : AdapterCapabilities

/-- The `{ adapter, score }` records pushed onto `candidates`. -/
structure Candidate where
  adapter : Adapter
  score : Nat

/-- The score computed in the loop body of `selectBestAdapter`:
+100 for a format match, +50 for GPU support on GPU hardware, +20 for
streaming support, +10 for a non-empty quantization list. -/
def adapterScore (modelInfo : Option ModelInfo)
    (hardware : Option HardwareInfo) (a : Adapter) : Nat :=
  (match modelInfo with
    | some i => if i.format = a.format then 100 else 0
    | none => 0) +
  (match hardware with
    | some hw => if hw.hasGPU && a.capabilities.supportsGPU then 50 else 0
    | none => 0) +
  (if a.capabilities.supportsStreaming then 20 else 0) +
  (if a.capabilities.supportsQuantization.length > 0 then 10 else 0)

/-- The candidate list built by the selection loop: adapters passing
`canHandle`, in registration (iteration) order, each with its score. -/
def candidatesOf (adapters : List Adapter) (path : String)
    (modelInfo : Option ModelInfo) (hardware : Option HardwareInfo) :
    List Candidate :=
  (adapters.filter (fun a => a.canHandle path modelInfo)).map
    (fun a => ⟨a, adapterScore modelInfo hardware a⟩)

/-- The comparator `(a, b) => b.score - a.score` orders candidates by
descending score; as a Lean relation: `a` may precede `b` iff
`b.score ≤ a.score`. -/
def leScore (a b : Candidate) : Bool := b.score ≤ a.score

/-- Stable insertion of a candidate into a score-sorted list: `a` goes
in front of the first element it may precede under `leScore`.  Ties
place the inserted (earlier-registered) candidate first, matching the
stability that ECMAScript guarantees for `Array.prototype.sort`. -/
def insertScored (a : Candidate) : List Candidate → List Candidate
  | [] => [a]
  | x :: xs => if leScore a x then a :: x :: xs else x :: insertScored a xs

/-- Stable sort by descending score, modelling
`candidates.sort((a, b) => b.score - a.score)`. -/
def sortByScore : List Candidate → List Candidate
  | [] => []
  | a :: rest => insertScored a (sortByScore rest)

/-- `selectBestAdapter(modelPath, modelInfo?, hardware?)`: return null
when no candidate, else stably sort descending by score and return the
first candidate's adapter. -/
def selectBestAdapter (adapters : List Adapter) (path : String)
    (modelInfo : Option ModelInfo) (hardware : Option HardwareInfo) :
    Option Adapter :=
  let candidates := candidatesOf adapters path modelInfo hardware
  if candidates.length = 0 then none
  else ((sortByScore candidates).head?).map (fun c => c.adapter)

/-- First candidate attaining the maximal score, ties to the earlier
one — the specification's tie-break rule. -/
def firstMax : List Candidate → Option Candidate
  | [] => none
  | c :: rest =>
    match firstMax rest with
    | none => some c
    | some b => some (if c.score < b.score then b else c)

theorem firstMax_eq_none_iff (l : List Candidate) :
    firstMax l = none ↔ l = [] := by
  cases l with
  | nil => simp [firstMax]
  | cons a rest =>
    simp only [firstMax]
    rcases firstMax rest with _ | b <;> simp

theorem head_sortByScore_eq_firstMax (l : List Candidate) :
    (sortByScore l).head? = firstMax l := by
  induction l with
  | nil => rfl
  | cons a rest ih =>
    simp only [sortByScore, firstMax]
    rcases hs : sortByScore rest with _ | ⟨x, xs⟩
    · have hfm : firstMax rest = none := by rw [← ih, hs]; rfl
      rw [hfm]
      rfl
    · have hfm : firstMax rest = some x := by rw [← ih, hs]; rfl
      rw [hfm]
      simp only [insertScored]
      by_cases hle : leScore a x
      · rw [if_pos hle]
        simp only [List.head?_cons, Option.some.injEq]
        rw [if_neg]
        simp only [leScore, decide_eq_true_eq] at hle
        omega
      · rw [if_neg hle]
        simp only [List.head?_cons, Option.some.injEq]
        rw [if_pos]
        simp only [leScore, decide_eq_true_eq] at hle
        omega

theorem firstMax_spec :
    ∀ (l : List Candidate) (c : Candidate), firstMax l = some c →
      ∃ pre post, l = pre ++ c :: post ∧
        (∀ b ∈ pre, b.score < c.score) ∧ ∀ b ∈ l, b.score ≤ c.score := by
  intro l
  induction l with
  | nil => intro c h; simp [firstMax] at h
  | cons a rest ih =>
    intro c h
    rcases hfm : firstMax rest with _ | b
    · have hrest : rest = [] := (firstMax_eq_none_iff rest).mp hfm
      subst hrest
      simp only [firstMax, Option.some.injEq] at h
      subst h
      exact ⟨[], [], rfl, by simp, by simp⟩
    · simp only [firstMax, hfm, Option.some.injEq] at h
      obtain ⟨pre, post, hsplit, hpre, hall⟩ := ih b hfm
      by_cases hlt : a.score < b.score
      · rw [if_pos hlt] at h
        subst h
        refine ⟨a :: pre, post, by rw [List.cons_append, hsplit], ?_, ?_⟩
        · intro x hx
          rcases List.mem_cons.mp hx with hx | hx
          · subst hx; exact hlt
          · exact hpre x hx
        · intro x hx
          rcases List.mem_cons.mp hx with hx | hx
          · subst hx; omega
          · exact hall x hx
      · rw [if_neg hlt] at h
        subst h
        refine ⟨[], rest, rfl, by simp, ?_⟩
        intro x hx
        rcases List.mem_cons.mp hx with hx | hx
        · subst hx; exact le_refl _
        · have := hall x hx
          omega

theorem mem_candidatesOf {adapters : List Adapter} {path : String}
    {modelInfo : Option ModelInfo} {hardware : Option HardwareInfo}
    {c : Candidate} (h : c ∈ candidatesOf adapters path modelInfo hardware) :
    c.adapter ∈ adapters ∧ c.adapter.canHandle path modelInfo = true ∧
      c.score = adapterScore modelInfo hardware c.adapter := by
  simp only [candidatesOf, List.mem_map, List.mem_filter] at h
  obtain ⟨a, ⟨hmem, hch⟩, rfl⟩ := h
  exact ⟨hmem, hch, rfl⟩

theorem candidate_mem_of_canHandle {adapters : List Adapter} {path : String}
    {modelInfo : Option ModelInfo} (hardware : Option HardwareInfo)
    {b : Adapter} (hmem : b ∈ adapters)
    (hch : b.canHandle path modelInfo = true) :
    (⟨b, adapterScore modelInfo hardware b⟩ : Candidate) ∈
      candidatesOf adapters path modelInfo hardware := by
  simp only [candidatesOf, List.mem_map, List.mem_filter]
  exact ⟨b, ⟨hmem, hch⟩, rfl⟩

theorem head?_mem {α : Type} {l : List α} {a : α} (h : l.head? = some a) :
    a ∈ l := by
  cases l with
  | nil => simp at h
  | cons x xs =>
    simp only [List.head?_cons, Option.some.injEq] at h
    subst h
    exact List.mem_cons_self _ _

/-! ### Claim C4 — adapter selection -/

/-- C4: `selectBestAdapter` considers only adapters whose `canHandle`
accepts the input; the returned adapter maximizes `adapterScore` (the
+100/+50/+20/+10 rule) over all accepting adapters; ties go to the
earlier (first-registered) candidate — every candidate before the chosen
one in registration order scores strictly less; null is returned exactly
when no registered adapter can handle the input; and repeated calls with
the same arguments return the same adapter. -/
theorem selectBestAdapter_characterization (adapters : List Adapter)
    (path : String) (modelInfo : Option ModelInfo)
    (hardware : Option HardwareInfo) :
    (selectBestAdapter adapters path modelInfo hardware = none ↔
      ∀ a ∈ adapters, a.canHandle path modelInfo = false) ∧
    (∀ a, selectBestAdapter adapters path modelInfo hardware = some a →
      a ∈ adapters ∧ a.canHandle path modelInfo = true ∧
      (∀ b ∈ adapters, b.canHandle path modelInfo = true →
        adapterScore modelInfo hardware b ≤
          adapterScore modelInfo hardware a) ∧
      ∃ pre post,
        candidatesOf adapters path modelInfo hardware =
          pre ++ (⟨a, adapterScore modelInfo hardware a⟩ : Candidate) :: post
        ∧ ∀ b ∈ pre, b.score < adapterScore modelInfo hardware a) ∧
    selectBestAdapter adapters path modelInfo hardware =
      selectBestAdapter adapters path modelInfo hardware := by
  refine ⟨⟨?_, ?_⟩, ?_, rfl⟩
  · intro hnone a ha
    by_contra hch
    rw [Bool.not_eq_false] at hch
    have hmem := candidate_mem_of_canHandle hardware ha hch
    have hne : candidatesOf adapters path modelInfo hardware ≠ [] := by
      intro hnil
      rw [hnil] at hmem
      simp at hmem
    have hlen : ¬ (candidatesOf adapters path modelInfo hardware).length = 0
      := by simpa [List.length_eq_zero] using hne
    simp only [selectBestAdapter] at hnone
    rw [if_neg hlen, head_sortByScore_eq_firstMax] at hnone
    rcases hfm : firstMax (candidatesOf adapters path modelInfo hardware)
      with _ | c
    · exact hne ((firstMax_eq_none_iff _).mp hfm)
    · rw [hfm] at hnone
      simp at hnone
  · intro hall
    have hfil : adapters.filter (fun a => a.canHandle path modelInfo) = [] :=
      List.filter_eq_nil_iff.mpr (fun a ha => by rw [hall a ha]; simp)
    simp [selectBestAdapter, candidatesOf, hfil]
  · intro a hsome
    simp only [selectBestAdapter] at hsome
    by_cases hlen : (candidatesOf adapters path modelInfo hardware).length = 0
    · rw [if_pos hlen] at hsome
      exact absurd hsome (by simp)
    · rw [if_neg hlen, head_sortByScore_eq_firstMax] at hsome
      rcases hfm : firstMax (candidatesOf adapters path modelInfo hardware)
        with _ | c
      · rw [hfm] at hsome
        simp at hsome
      · rw [hfm] at hsome
        simp only [Option.map_some', Option.some.injEq] at hsome
        obtain ⟨pre, post, hsplit, hpre, hmax⟩ := firstMax_spec _ c hfm
        have hcmem : c ∈ candidatesOf adapters path modelInfo hardware := by
          rw [hsplit]
          exact List.mem_append_right _ (List.mem_cons_self _ _)
        obtain ⟨hadm, hch, hcscore⟩ := mem_candidatesOf hcmem
        subst hsome
        refine ⟨hadm, hch, ?_, pre, post, ?_, ?_⟩
        · intro b hb hbch
          have hbmem := candidate_mem_of_canHandle hardware hb hbch
          have hble := hmax _ hbmem
          rw [hcscore] at hble
          exact hble
        · rw [← hcscore]
          exact hsplit
        · intro b hb
          have := hpre b hb
          rw [← hcscore]
          exact this

/-- "Alpha" adapter of the end-to-end scenario: GPU + streaming +
quantization support. -/
def alphaAdapter : Adapter := ⟨"alpha", fun _ _ => true, ⟨true, true, ["q4"]⟩⟩

/-- "Beta" adapter of the end-to-end scenario: no GPU, no streaming, no
quantization. -/
def betaAdapter : Adapter := ⟨"beta", fun _ _ => true, ⟨false, false, []⟩⟩

/-- Concrete witness for adapter selection: with alpha and beta
registered, GPU hardware and a matching "alpha" file, alpha is selected
and its score dominates. -/
theorem selectBestAdapter_characterization_witness :
    alphaAdapter ∈ [alphaAdapter, betaAdapter] ∧
    alphaAdapter.canHandle "model.alpha" (some ⟨"alpha", 5⟩) = true ∧
    (∀ b ∈ [alphaAdapter, betaAdapter],
      b.canHandle "model.alpha" (some ⟨"alpha", 5⟩) = true →
      adapterScore (some ⟨"alpha", 5⟩) (some ⟨true⟩) b ≤
        adapterScore (some ⟨"alpha", 5⟩) (some ⟨true⟩) alphaAdapter) ∧
    ∃ pre post,
      candidatesOf [alphaAdapter, betaAdapter] "model.alpha"
          (some ⟨"alpha", 5⟩) (some ⟨true⟩) =
        pre ++ (⟨alphaAdapter, adapterScore (some ⟨"alpha", 5⟩)
          (some ⟨true⟩) alphaAdapter⟩ : Candidate) :: post
      ∧ ∀ b ∈ pre, b.score <
          adapterScore (some ⟨"alpha", 5⟩) (some ⟨true⟩) alphaAdapter :=
  (selectBestAdapter_characterization [alphaAdapter, betaAdapter]
    "model.alpha" (some ⟨"alpha", 5⟩) (some ⟨true⟩)).2.1 alphaAdapter rfl

/-! ### StreamingUtils (utils/StreamingUtils.ts) -/

/-- State of a `BackpressureHandler`.  `waitingResolvers` holds
identifiers of suspended `acquire` callers, oldest first.  `pending` is
an `Int` because `release()` decrements unconditionally. -/
structure BackpressureHandler where
  pending : Int
  maxPending : Nat
  waitingResolvers : List Nat
deriving Repr, DecidableEq

namespace BackpressureHandler

/-- `new BackpressureHandler(maxPending)`. -/
def mk0 (maxPending : Nat) : BackpressureHandler := ⟨0, maxPending, []⟩

/-- `acquire()`: grant immediately when `pending < maxPending`
(increment `pending`, return `true`); otherwise suspend the caller by
queueing its resolver at the back (return `false`). -/
def acquire (b : BackpressureHandler) (waiter : Nat) :
    BackpressureHandler × Bool :=
  if b.pending < (b.maxPending : Int) then
    ({ b with pending := b.pending + 1 }, true)
  else
    ({ b with waitingResolvers := b.waitingResolvers ++ [waiter] }, false)

/-- `release()`: decrement `pending`; then, if a resolver is waiting,
dequeue the oldest, re-increment `pending`, and resolve it (returned as
`some waiter`). -/
def release (b : BackpressureHandler) : BackpressureHandler × Option Nat :=
  let b1 : BackpressureHandler := { b with pending := b.pending - 1 }
  match b1.waitingResolvers with
  | [] => (b1, none)
  | r :: rest =>
    ({ b1 with pending := b1.pending + 1, waitingResolvers := rest }, some r)

end BackpressureHandler

/-- `TokenBuffer`: bounded buffer of the most recent tokens. -/
structure TokenBuffer where
  buffer : List String
  maxSize : Nat
deriving Repr, DecidableEq

namespace TokenBuffer

/-- `new TokenBuffer(maxSize)`. -/
def mk0 (maxSize : Nat) : TokenBuffer := ⟨[], maxSize⟩

/-- `add(token)`: `push`, then `shift()` (drop the oldest) once the
length exceeds capacity. -/
def add (b : TokenBuffer) (token : String) : TokenBuffer :=
  let buf := b.buffer ++ [token]
  if buf.length > b.maxSize then { b with buffer := buf.drop 1 }
  else { b with buffer := buf }

/-- A sequence of `add` calls, in order. -/
def addAll (b : TokenBuffer) (tokens : List String) : TokenBuffer :=
  tokens.foldl add b

/-- `getAll()`. -/
def getAll (b : TokenBuffer) : List String := b.buffer

/-- `getText()`: `join('')` — concatenation with no separator. -/
def getText (b : TokenBuffer) : String := String.join b.buffer

/-- `getLastN(n)` is `buffer.slice(-n)`: for `n = 0`, `-0` is `0`, so a
copy of the whole buffer; otherwise the elements from index
`length - n` (clamped to `0`) on. -/
def getLastN (b : TokenBuffer) (n : Nat) : List String :=
  if n = 0 then b.buffer else b.buffer.drop (b.buffer.length - n)

end TokenBuffer

/-- One "produce next item" step of a wrapped generator in
`streamWithTimeout`: how long `generator.next()` takes and the value it
resolves with. -/
structure GenStep (α : Type) where
  duration : Nat
  value : α
deriving Repr, DecidableEq

/-- Observable outcome of `streamWithTimeout`: values yielded, whether
the run ended in the per-step timeout error, and whether the producer's
`return` (cleanup) path ran. -/
structure StreamResult (α : Type) where
  yielded : List α
  timedOut : Bool
  returnInvoked : Bool
deriving Repr, DecidableEq

/-- The `while (true)` loop: each step races `generator.next()` against
a fresh `timeoutMs` timer; the item wins exactly when the step completes
within the timeout, and then the timer is cleared and re-armed for the
next step. -/
def streamLoop {α : Type} (timeoutMs : Nat) :
    List (GenStep α) → List α × Bool
  | [] => ([], false)
  | s :: rest =>
    if s.duration ≤ timeoutMs then
      let r := streamLoop timeoutMs rest
      (s.value :: r.1, r.2)
    else ([], true)

/-- `streamWithTimeout(generator, timeoutMs)` over a generator modelled
as its list of steps.  The `finally` block always invokes
`generator.return` — before the timeout error propagates to the
caller — so `returnInvoked` is unconditionally true. -/
def streamWithTimeout {α : Type} (steps : List (GenStep α))
    (timeoutMs : Nat) : StreamResult α :=
  let r := streamLoop timeoutMs steps
  ⟨r.1, r.2, true⟩

/-! ### Claim C5 — backpressure fairness -/

/-- C5: with `maxPending = 2`, three `acquire()` calls grant the first
two immediately and suspend the third; one `release()` resolves exactly
that third (the oldest, FIFO) waiter; and the pending count after every
step of the scenario is at most 2. -/
theorem backpressure_fairness_scenario :
    (((BackpressureHandler.mk0 2).acquire 1).2 = true) ∧
    ((((BackpressureHandler.mk0 2).acquire 1).1.acquire 2).2 = true) ∧
    (((((BackpressureHandler.mk0 2).acquire 1).1.acquire 2).1.acquire 3).2 = false) ∧
    (((((BackpressureHandler.mk0 2).acquire 1).1.acquire 2).1.acquire 3).1.waitingResolvers = [3]) ∧
    (((((BackpressureHandler.mk0 2).acquire 1).1.acquire 2).1.acquire 3).1.release.2 = some 3) ∧
    (((((BackpressureHandler.mk0 2).acquire 1).1.acquire 2).1.acquire 3).1.release.1.waitingResolvers = []) ∧
    (((BackpressureHandler.mk0 2).acquire 1).1.pending ≤ 2) ∧
    ((((BackpressureHandler.mk0 2).acquire 1).1.acquire 2).1.pending ≤ 2) ∧
    (((((BackpressureHandler.mk0 2).acquire 1).1.acquire 2).1.acquire 3).1.pending ≤ 2) ∧
    (((((BackpressureHandler.mk0 2).acquire 1).1.acquire 2).1.acquire 3).1.release.1.pending ≤ 2) := by
  decide

/-! ### Claim C8 — TokenBuffer FIFO -/

/-- C8: strict FIFO eviction, one token per overflowing `add`: capacity
5 with tokens A–G retains the last five (earliest first), capacity 3
with A–D concatenates to "BCD"; and in general an `add` to a full
buffer with positive capacity drops exactly the oldest token. -/
theorem tokenBuffer_fifo :
    (((TokenBuffer.mk0 5).addAll ["A", "B", "C", "D", "E", "F", "G"]).getLastN 5 = ["C", "D", "E", "F", "G"]) ∧
    (((TokenBuffer.mk0 3).addAll ["A", "B", "C", "D"]).getText = "BCD") ∧
    (∀ (b : TokenBuffer) (t : String), b.buffer.length = b.maxSize →
      0 < b.maxSize → (b.add t).buffer = b.buffer.drop 1 ++ [t]) := by
  refine ⟨by decide, by decide, ?_⟩
  intro b t hfull hpos
  obtain ⟨buf, ms⟩ := b
  simp only at hfull hpos
  rcases buf with _ | ⟨x, xs⟩
  · simp at hfull
    omega
  · have hlen : ((x :: xs) ++ [t]).length > ms := by
      simp only [List.length_append, List.length_cons] at hfull ⊢
      omega
    simp only [TokenBuffer.add]
    rw [if_pos hlen]
    simp

/-- Concrete witness for the general one-per-add eviction clause. -/
theorem tokenBuffer_fifo_witness :
    ((⟨["x"], 1⟩ : TokenBuffer).add "y").buffer = ["x"].drop 1 ++ ["y"] :=
  tokenBuffer_fifo.2.2 ⟨["x"], 1⟩ "y" (by decide) (by decide)

/-! ### Claim C10 — getLastN 0 -/

/-- C10: `getLastN 0` returns the entire retained token list (because
`slice(-0)` is `slice(0)`), in particular non-empty for a non-empty
buffer; for `n > 0` it returns a suffix of the buffer of length
`min n length`. -/
theorem tokenBuffer_getLastN_zero (b : TokenBuffer) (n : Nat) :
    (b.getLastN 0 = b.getAll) ∧
    (b.buffer ≠ [] → b.getLastN 0 ≠ []) ∧
    (0 < n → List.IsSuffix (b.getLastN n) b.buffer ∧
      (b.getLastN n).length = min n b.buffer.length) := by
  refine ⟨rfl, ?_, ?_⟩
  · intro hne
    simpa [TokenBuffer.getLastN] using hne
  · intro hn
    have hne : ¬ n = 0 := by omega
    constructor
    · simp only [TokenBuffer.getLastN]
      rw [if_neg hne]
      exact List.drop_suffix _ _
    · simp only [TokenBuffer.getLastN]
      rw [if_neg hne, List.length_drop]
      omega

/-- Concrete witness for the `getLastN` theorem. -/
theorem tokenBuffer_getLastN_zero_witness :
    ((⟨["a", "b"], 5⟩ : TokenBuffer).getLastN 0 ≠ []) ∧
      ((⟨["a", "b"], 5⟩ : TokenBuffer).getLastN 1).length = min 1 2 :=
  ⟨(tokenBuffer_getLastN_zero ⟨["a", "b"], 5⟩ 1).2.1 (by decide),
    ((tokenBuffer_getLastN_zero ⟨["a", "b"], 5⟩ 1).2.2 (by decide)).2⟩

/-! ### Claim C7 — per-step stream timeout -/

/-- C7: `streamWithTimeout` bounds each step, not the total duration:
if every step completes within `timeoutMs`, every item is yielded with
no timeout (whatever the total duration), and the producer's cleanup
still runs; if some step exceeds `timeoutMs`, the items before it are
yielded, the run fails with the timeout error, and the producer's
cleanup/return path is invoked. -/
theorem streamWithTimeout_per_step {α : Type} (timeoutMs : Nat) :
    (∀ steps : List (GenStep α),
      (∀ s ∈ steps, s.duration ≤ timeoutMs) →
      streamWithTimeout steps timeoutMs =
        ⟨steps.map (fun s => s.value), false, true⟩) ∧
    (∀ (pre : List (GenStep α)) (s : GenStep α) (rest : List (GenStep α)),
      (∀ x ∈ pre, x.duration ≤ timeoutMs) → s.duration > timeoutMs →
      streamWithTimeout (pre ++ s :: rest) timeoutMs =
        ⟨pre.map (fun x => x.value), true, true⟩) := by
  have hloop1 : ∀ steps : List (GenStep α),
      (∀ s ∈ steps, s.duration ≤ timeoutMs) →
      streamLoop timeoutMs steps = (steps.map (fun s => s.value), false) := by
    intro steps
    induction steps with
    | nil => intro _; rfl
    | cons s rest ih =>
      intro h
      have hs := h s (List.mem_cons_self _ _)
      have hrec := ih (fun x hx => h x (List.mem_cons_of_mem _ hx))
      simp only [streamLoop, hrec, List.map_cons]
      rw [if_pos hs]
  have hloop2 : ∀ (pre : List (GenStep α)) (s : GenStep α)
      (rest : List (GenStep α)),
      (∀ x ∈ pre, x.duration ≤ timeoutMs) → s.duration > timeoutMs →
      streamLoop timeoutMs (pre ++ s :: rest) =
        (pre.map (fun x => x.value), true) := by
    intro pre
    induction pre with
    | nil =>
      intro s rest _ hs
      simp only [List.nil_append, streamLoop]
      rw [if_neg (by omega)]
      rfl
    | cons x xs ih =>
      intro s rest h hs
      have hx := h x (List.mem_cons_self _ _)
      have hrec := ih s rest (fun y hy => h y (List.mem_cons_of_mem _ hy)) hs
      simp only [List.cons_append, streamLoop, List.append_eq, hrec,
        List.map_cons]
      rw [if_pos hx]
  constructor
  · intro steps h
    simp only [streamWithTimeout, hloop1 steps h]
  · intro pre s rest h hs
    simp only [streamWithTimeout, hloop2 pre s rest h hs]

/-- Concrete witness for the per-step timeout theorem: three 2 ms steps
under a 3 ms per-step timeout (total 6 ms > 3 ms) all yield; a 5 ms
second step times out after the first item, with cleanup run. -/
theorem streamWithTimeout_per_step_witness :
    streamWithTimeout
        [(⟨2, "a"⟩ : GenStep String), ⟨2, "b"⟩, ⟨2, "c"⟩] 3 =
      ⟨["a", "b", "c"], false, true⟩ ∧
    streamWithTimeout [(⟨2, "a"⟩ : GenStep String), ⟨5, "b"⟩, ⟨2, "c"⟩] 3 =
      ⟨["a"], true, true⟩ :=
  ⟨(streamWithTimeout_per_step 3).1 [⟨2, "a"⟩, ⟨2, "b"⟩, ⟨2, "c"⟩]
      (by decide),
    (streamWithTimeout_per_step 3).2 [⟨2, "a"⟩] ⟨5, "b"⟩ [⟨2, "c"⟩]
      (by decide) (by decide)⟩

/-! ### ErrorHandler (utils/ErrorHandler.ts) -/

/-- The `ErrorCode` enum. -/
inductive ErrorCode
  | MODEL_NOT_FOUND
  | MODEL_LOAD_FAILED
  | INFERENCE_FAILED
  | UNSUPPORTED_FORMAT
  | INVALID_INPUT
  | MEMORY_ERROR
  | TIMEOUT_ERROR
  | NETWORK_ERROR
  | HARDWARE_ERROR
  | CONFIGURATION_ERROR
deriving Repr, DecidableEq

/-- An error as classified by `ErrorHandler`: an `AIError` carrying a
code, its `recoverable` flag, and a message, or a plain `Error` with
only a message. -/
inductive JsError
  | ai (code : ErrorCode) (recoverable : Bool) (message : String)
  | generic (message : String)
deriving Repr, DecidableEq

/-- The static `retryableErrors` set. -/
def retryableErrors : List ErrorCode :=
  [ErrorCode.MODEL_LOAD_FAILED, ErrorCode.INFERENCE_FAILED,
   ErrorCode.TIMEOUT_ERROR, ErrorCode.NETWORK_ERROR]

/-- Does `pat` occur at the very start of `text`? -/
def charsStartWith : List Char → List Char → Bool
  | [], _ => true
  | _ :: _, [] => false
  | p :: ps, c :: cs => p = c && charsStartWith ps cs

/-- Does `pat` occur anywhere in `text`? -/
def charsContain (pat : List Char) : List Char → Bool
  | [] => pat.isEmpty
  | c :: cs => charsStartWith pat (c :: cs) || charsContain pat cs

/-- JavaScript `String.prototype.includes`. -/
def strIncludes (s pat : String) : Bool := charsContain pat.toList s.toList

/-- `ErrorHandler.isRetryable`: an `AIError` is retryable iff it is
recoverable and its code is in `retryableErrors`; a plain error iff its
lower-cased message mentions a transient-failure keyword. -/
def isRetryable : JsError → Bool
  | JsError.ai code recoverable _ =>
    recoverable && retryableErrors.contains code
  | JsError.generic msg =>
    let m := msg.toLower
    strIncludes m "timeout" || strIncludes m "network" ||
      strIncludes m "connection" || strIncludes m "temporary"

/-- Observable outcome of `withRetry`: the final result, the number of
attempts made, and the backoff delays awaited, in order. -/
structure RetryTrace (α : Type) where
  result : Except JsError α
  attempts : Nat
  delays : List Nat
deriving Repr

/-- The `for (attempt = 0; attempt <= maxRetries; attempt++)` loop of
`withRetry`, with the operation modelled as a function from the attempt
index to its outcome.  `fuel` is `maxRetries + 1 - attempt`; the source
loop always returns or throws before the fuel runs out, so the fuel-0
branch is unreachable on the executions the theorems describe. -/
def withRetryGo {α : Type} (op : Nat → Except JsError α)
    (maxRetries backoffMs : Nat) :
    Nat → Nat → List Nat → RetryTrace α
  | attempt, 0, delays =>
    ⟨Except.error (JsError.generic "retry fuel exhausted"), attempt + 1,
      delays⟩
  | attempt, fuel + 1, delays =>
    match op attempt with
    | Except.ok v => ⟨Except.ok v, attempt + 1, delays⟩
    | Except.error e =>
      if attempt = maxRetries ∨ ¬ isRetryable e then
        ⟨Except.error e, attempt + 1, delays⟩
      else
        withRetryGo op maxRetries backoffMs (attempt + 1) fuel
          (delays ++ [backoffMs * 2 ^ attempt])

/-- `ErrorHandler.withRetry(operation, maxRetries, backoffMs)`. -/
def withRetry {α : Type} (op : Nat → Except JsError α)
    (maxRetries backoffMs : Nat) : RetryTrace α :=
  withRetryGo op maxRetries backoffMs 0 (maxRetries + 1) []

theorem withRetryGo_succ {α : Type} (op : Nat → Except JsError α)
    (m b attempt fuel : Nat) (delays : List Nat) :
    withRetryGo op m b attempt (fuel + 1) delays =
      match op attempt with
      | Except.ok v => ⟨Except.ok v, attempt + 1, delays⟩
      | Except.error e =>
        if attempt = m ∨ ¬ isRetryable e then
          ⟨Except.error e, attempt + 1, delays⟩
        else
          withRetryGo op m b (attempt + 1) fuel
            (delays ++ [b * 2 ^ attempt]) := rfl

theorem withRetryGo_delays {α : Type} (op : Nat → Except JsError α)
    (m b : Nat) :
    ∀ (fuel attempt : Nat) (delays : List Nat),
      attempt + 1 ≤ (withRetryGo op m b attempt fuel delays).attempts ∧
      (withRetryGo op m b attempt fuel delays).delays =
        delays ++ (List.range' attempt
          ((withRetryGo op m b attempt fuel delays).attempts - 1 - attempt)
          ).map (fun i => b * 2 ^ i) := by
  intro fuel
  induction fuel with
  | zero =>
    intro attempt delays
    exact ⟨le_refl _, by simp [withRetryGo]⟩
  | succ n ih =>
    intro attempt delays
    rw [withRetryGo_succ]
    rcases hop : op attempt with e | v
    · simp only []
      by_cases hcond : attempt = m ∨ ¬ isRetryable e
      · rw [if_pos hcond]
        exact ⟨le_refl _, by simp⟩
      · rw [if_neg hcond]
        obtain ⟨hle, hdel⟩ := ih (attempt + 1) (delays ++ [b * 2 ^ attempt])
        refine ⟨by omega, ?_⟩
        rw [hdel, List.append_assoc]
        congr 1
        have hk : (withRetryGo op m b (attempt + 1) n
            (delays ++ [b * 2 ^ attempt])).attempts - 1 - attempt =
            ((withRetryGo op m b (attempt + 1) n
              (delays ++ [b * 2 ^ attempt])).attempts - 1 - (attempt + 1))
              + 1 := by
          omega
        rw [hk, List.range'_succ, List.map_cons]
        rfl
    · simp only []
      exact ⟨le_refl _, by simp⟩

/-! ### Claim C6 — retry semantics -/

/-- C6: under `withRetry`, an operation failing twice retryably then
succeeding, with `maxRetries = 3`, returns the success value after
exactly 3 attempts with exponential delays `b·2⁰, b·2¹`; an operation
that always fails retryably, with `maxRetries = 2`, makes exactly 3
attempts (1 initial + 2 retries) and propagates the final error
unchanged; every delay before retry attempt `i` is `backoff · 2^i`; and
a non-retryable error fails on the first attempt with no retry and no
delay. -/
theorem withRetry_semantics {α : Type} (b : Nat) :
    (∀ (op : Nat → Except JsError α) (e0 e1 : JsError) (v : α),
      op 0 = Except.error e0 → isRetryable e0 = true →
      op 1 = Except.error e1 → isRetryable e1 = true →
      op 2 = Except.ok v →
      withRetry op 3 b = ⟨Except.ok v, 3, [b * 2 ^ 0, b * 2 ^ 1]⟩) ∧
    (∀ (op : Nat → Except JsError α) (e0 e1 e2 : JsError),
      op 0 = Except.error e0 → isRetryable e0 = true →
      op 1 = Except.error e1 → isRetryable e1 = true →
      op 2 = Except.error e2 →
      withRetry op 2 b = ⟨Except.error e2, 3, [b * 2 ^ 0, b * 2 ^ 1]⟩) ∧
    (∀ (op : Nat → Except JsError α) (e : JsError) (m : Nat),
      op 0 = Except.error e → isRetryable e = false →
      withRetry op m b = ⟨Except.error e, 1, []⟩) ∧
    (∀ (op : Nat → Except JsError α) (m : Nat),
      (withRetry op m b).delays =
        (List.range' 0 ((withRetry op m b).attempts - 1)).map
          (fun i => b * 2 ^ i)) := by
  refine ⟨?_, ?_, ?_, ?_⟩
  · intro op e0 e1 v h0 he0 h1 he1 h2
    show withRetryGo op 3 b 0 (3 + 1) [] = _
    rw [withRetryGo_succ]
    simp only [h0]
    rw [if_neg (by simp [he0])]
    rw [withRetryGo_succ]
    simp only [h1]
    rw [if_neg (by simp [he1])]
    rw [withRetryGo_succ]
    simp only [h2]
    rfl
  · intro op e0 e1 e2 h0 he0 h1 he1 h2
    show withRetryGo op 2 b 0 (2 + 1) [] = _
    rw [withRetryGo_succ]
    simp only [h0]
    rw [if_neg (by simp [he0])]
    rw [withRetryGo_succ]
    simp only [h1]
    rw [if_neg (by simp [he1])]
    rw [withRetryGo_succ]
    simp only [h2]
    simp
  · intro op e m h0 he
    show withRetryGo op m b 0 (m + 1) [] = _
    rw [withRetryGo_succ]
    simp only [h0]
    rw [if_pos (Or.inr (by simp [he]))]
  · intro op m
    have h := (withRetryGo_delays op m b (m + 1) 0 []).2
    simpa [withRetry] using h

/-- Concrete witness for the retry-semantics theorem: a timeout error
(retryable) twice then success, a persistent network failure, and a
non-recoverable memory error, with base delay 10. -/
theorem withRetry_semantics_witness :
    withRetry (fun i => if i < 2 then
        Except.error (JsError.ai ErrorCode.TIMEOUT_ERROR true "t")
      else Except.ok 42) 3 10 =
      ⟨Except.ok 42, 3, [10 * 2 ^ 0, 10 * 2 ^ 1]⟩ ∧
    withRetry (fun _ => (Except.error
        (JsError.ai ErrorCode.NETWORK_ERROR true "n") : Except JsError Nat))
      2 10 =
      ⟨Except.error (JsError.ai ErrorCode.NETWORK_ERROR true "n"), 3,
        [10 * 2 ^ 0, 10 * 2 ^ 1]⟩ ∧
    withRetry (fun _ => (Except.error
        (JsError.ai ErrorCode.MEMORY_ERROR false "m") : Except JsError Nat))
      5 10 =
      ⟨Except.error (JsError.ai ErrorCode.MEMORY_ERROR false "m"), 1, []⟩ :=
  ⟨(withRetry_semantics 10).1 _ _ _ 42 rfl (by decide) rfl (by decide) rfl,
    (withRetry_semantics 10).2.1 _ _ _ _ rfl (by decide) rfl (by decide) rfl,
    (withRetry_semantics 10).2.2.1 _ _ 5 rfl (by decide)⟩

end IDGAF
